import Mathlib

/-!
Verification of the pricing statistics library in
src/rust_engine/src/lib.rs.

The Rust module exposes five pure functions over f64 sequences and i64
quantity sequences.  We shallowly embed them here:

* f64 values are modelled by `F64`: NaN, the two infinities, and exact
  finite values carried as rationals.  The IEEE-754 special-value rules
  that the claims depend on (NaN propagation, infinity arithmetic, the
  asymmetric NaN handling of f64::min / f64::max) are modelled exactly;
  rounding of finite arithmetic is idealised away (finite operations are
  exact), which is the standard shallow embedding for claims about which
  formula and branch the code computes.
* i64 arithmetic is modelled on `Int` with explicit wrapping modulo 2^64
  into the signed range, matching release-mode Rust `iter().sum::<i64>()`.
* `PyResult` is modelled by `Except String`, the error payload being the
  message string given to `PyValueError::new_err`.
* The `HashMap<String, f64>` result of `aggregate_stats` is modelled as
  an association list recording the four inserts in program order.
-/

/-- Idealised IEEE-754 double: NaN, the infinities, and exact finite
values represented as rationals. -/
inductive F64 where
  | nan  : F64
  | inf  : F64
  | ninf : F64
  | fin  : ℚ → F64
deriving DecidableEq, Repr

namespace F64

/-- Rust `f64::min` (used by the folds in `cheapest` and
`aggregate_stats`): if exactly one operand is NaN the other is returned;
the minimum of two NaNs is NaN. -/
def fmin : F64 → F64 → F64
  | .nan, b => b
  | a, .nan => a
  | .ninf, _ => .ninf
  | _, .ninf => .ninf
  | .inf, b => b
  | a, .inf => a
  | .fin a, .fin b => .fin (min a b)

/-- Rust `f64::max`, dual to `fmin`. -/
def fmax : F64 → F64 → F64
  | .nan, b => b
  | a, .nan => a
  | .inf, _ => .inf
  | _, .inf => .inf
  | .ninf, b => b
  | a, .ninf => a
  | .fin a, .fin b => .fin (max a b)

/-- IEEE addition: NaN propagates, opposite infinities give NaN. -/
def add : F64 → F64 → F64
  | .nan, _ => .nan
  | _, .nan => .nan
  | .inf, .ninf => .nan
  | .ninf, .inf => .nan
  | .inf, _ => .inf
  | _, .inf => .inf
  | .ninf, _ => .ninf
  | _, .ninf => .ninf
  | .fin a, .fin b => .fin (a + b)

/-- IEEE subtraction: NaN propagates, inf - inf gives NaN. -/
def sub : F64 → F64 → F64
  | .nan, _ => .nan
  | _, .nan => .nan
  | .inf, .inf => .nan
  | .ninf, .ninf => .nan
  | .inf, _ => .inf
  | .ninf, _ => .ninf
  | _, .inf => .ninf
  | _, .ninf => .inf
  | .fin a, .fin b => .fin (a - b)

/-- IEEE multiplication: NaN propagates, infinity times zero gives NaN,
otherwise signs multiply. -/
def mul : F64 → F64 → F64
  | .nan, _ => .nan
  | _, .nan => .nan
  | .inf, .inf => .inf
  | .inf, .ninf => .ninf
  | .ninf, .inf => .ninf
  | .ninf, .ninf => .inf
  | .inf, .fin b => if 0 < b then .inf else if b < 0 then .ninf else .nan
  | .fin a, .inf => if 0 < a then .inf else if a < 0 then .ninf else .nan
  | .ninf, .fin b => if 0 < b then .ninf else if b < 0 then .inf else .nan
  | .fin a, .ninf => if 0 < a then .ninf else if a < 0 then .inf else .nan
  | .fin a, .fin b => .fin (a * b)

/-- IEEE division (signed zeros idealised away): NaN propagates,
inf/inf gives NaN, finite/inf gives 0, division by zero gives an
infinity (or NaN for 0/0). -/
def div : F64 → F64 → F64
  | .nan, _ => .nan
  | _, .nan => .nan
  | .inf, .inf => .nan
  | .inf, .ninf => .nan
  | .ninf, .inf => .nan
  | .ninf, .ninf => .nan
  | .inf, .fin b => if b < 0 then .ninf else .inf
  | .ninf, .fin b => if b < 0 then .inf else .ninf
  | .fin _, .inf => .fin 0
  | .fin _, .ninf => .fin 0
  | .fin a, .fin b =>
      if b = 0 then (if a = 0 then .nan else if 0 < a then .inf else .ninf)
      else .fin (a / b)

/-- Truncation toward zero of a rational, as used by the floating
remainder operator: T-division of numerator by denominator. -/
def qtrunc (q : ℚ) : Int := Int.tdiv q.num q.den

/-- Rust `%` on f64 (fmod): remainder with the sign of the dividend,
computed by truncating division. -/
def fmod : F64 → F64 → F64
  | .nan, _ => .nan
  | _, .nan => .nan
  | .inf, _ => .nan
  | .ninf, _ => .nan
  | .fin a, .inf => .fin a
  | .fin a, .ninf => .fin a
  | .fin a, .fin b => if b = 0 then .nan else .fin (a - b * qtrunc (a / b))

/-- Whether a value is the NaN of the model. -/
def isNaN : F64 → Bool
  | .nan => true
  | _ => false

/-- The IEEE comparison less-or-equal as a Boolean: false whenever an
operand is NaN, otherwise the total order with -inf at the bottom and
+inf at the top. -/
def fle : F64 → F64 → Bool
  | .nan, _ => false
  | _, .nan => false
  | .ninf, _ => true
  | _, .ninf => false
  | _, .inf => true
  | .inf, _ => false
  | .fin a, .fin b => a ≤ b

end F64

instance {ε α : Type} [DecidableEq ε] [DecidableEq α] :
    DecidableEq (Except ε α) := fun x y =>
  match x, y with
  | .error a, .error b => decidable_of_iff (a = b) (by simp)
  | .error _, .ok _ => isFalse (by simp)
  | .ok _, .error _ => isFalse (by simp)
  | .ok a, .ok b => decidable_of_iff (a = b) (by simp)

/-- Rust `iter().sum::<f64>()`: a left fold of IEEE addition starting
from 0.0. -/
def f64sum (l : List F64) : F64 := l.foldl F64.add (F64.fin 0)

/-- Wrap an integer into the signed 64-bit range, i.e. reduce modulo
2^64 into [-2^63, 2^63). -/
def wrapI64 (n : Int) : Int := (n + 2 ^ 63) % 2 ^ 64 - 2 ^ 63

/-- Membership in the signed 64-bit integer range. -/
def isI64 (n : Int) : Prop := -(2 ^ 63) ≤ n ∧ n < 2 ^ 63

instance (n : Int) : Decidable (isI64 n) := by unfold isI64; infer_instance

/-- Rust `iter().sum::<i64>()` in release mode: a left fold of wrapping
64-bit addition starting from 0. -/
def sumI64 (l : List Int) : Int := l.foldl (fun a b => wrapI64 (a + b)) 0

/-- `cheapest` from src/rust_engine/src/lib.rs: fold of f64::min over
the prices, seeded at positive infinity. -/
def cheapest (prices : List F64) : F64 :=
  prices.foldl F64.fmin F64.inf

/-- `savings` from src/rust_engine/src/lib.rs: current minus cheapest. -/
def savings (current cheapest : F64) : F64 :=
  F64.sub current cheapest

/-- `predict_price` from src/rust_engine/src/lib.rs: the string lengths
are cast to f64, combined as len(item)*100 + len(location)*50, reduced
modulo 1000.0 with the floating remainder, and added to 400.0. -/
def predict_price (item location : String) : F64 :=
  let hash := F64.fmod
    (F64.add (F64.mul (F64.fin item.length) (F64.fin 100))
             (F64.mul (F64.fin location.length) (F64.fin 50)))
    (F64.fin 1000)
  F64.add (F64.fin 400) hash

/-- `aggregate_stats` from src/rust_engine/src/lib.rs.  The result map
is modelled as the association list of the four inserts in program
order; the empty-prices branch returns all zeros without touching the
quantities, the other branch computes mean, the min/max folds, and the
i64 quantity sum cast to f64. -/
def aggregate_stats (prices : List F64) (quantities : List Int) :
    Except String (List (String × F64)) :=
  if prices.isEmpty then
    Except.ok [("mean", F64.fin 0), ("min_val", F64.fin 0),
               ("max_val", F64.fin 0), ("total_qty", F64.fin 0)]
  else
    let mean := F64.div (f64sum prices) (F64.fin (prices.length : ℚ))
    let min_val := prices.foldl F64.fmin F64.inf
    let max_val := prices.foldl F64.fmax F64.ninf
    let total_qty := sumI64 quantities
    Except.ok [("mean", mean), ("min_val", min_val),
               ("max_val", max_val), ("total_qty", F64.fin (total_qty : ℚ))]

/-- `weighted_average_price` from src/rust_engine/src/lib.rs: rejects
length mismatch with a fixed message, returns 0.0 on empty input or
zero total quantity, and otherwise divides the weighted f64 sum by the
i64 quantity total cast to f64. -/
def weighted_average_price (prices : List F64) (quantities : List Int) :
    Except String F64 :=
  if prices.length ≠ quantities.length then
    Except.error "Prices and quantities must have the same length"
  else if prices.isEmpty then
    Except.ok (F64.fin 0)
  else
    let weighted_sum := f64sum
      ((prices.zip quantities).map (fun pq => F64.mul pq.1 (F64.fin (pq.2 : ℚ))))
    let total_qty := sumI64 quantities
    if total_qty = 0 then
      Except.ok (F64.fin 0)
    else
      Except.ok (F64.div weighted_sum (F64.fin (total_qty : ℚ)))

namespace F64

lemma add_fin (a b : ℚ) : F64.add (.fin a) (.fin b) = .fin (a + b) := rfl

lemma sub_fin (a b : ℚ) : F64.sub (.fin a) (.fin b) = .fin (a - b) := rfl

lemma mul_fin (a b : ℚ) : F64.mul (.fin a) (.fin b) = .fin (a * b) := rfl

lemma div_fin (a b : ℚ) (hb : b ≠ 0) :
    F64.div (.fin a) (.fin b) = .fin (a / b) := by
  simp [F64.div, hb]

lemma qtrunc_eq_floor (q : ℚ) (hq : 0 ≤ q) : qtrunc q = ⌊q⌋ := by
  unfold qtrunc
  rw [Int.tdiv_eq_ediv (Rat.num_nonneg.2 hq) (Int.natCast_nonneg _), Rat.floor_def]

lemma fmod_natCast (a b : ℕ) (hb : b ≠ 0) :
    F64.fmod (.fin a) (.fin b) = .fin ((a % b : ℕ) : ℚ) := by
  have hb' : ((b : ℚ)) ≠ 0 := Nat.cast_ne_zero.2 hb
  have hq : (0 : ℚ) ≤ (a : ℚ) / (b : ℚ) :=
    div_nonneg (Nat.cast_nonneg a) (Nat.cast_nonneg b)
  simp only [F64.fmod, hb', if_false]
  rw [qtrunc_eq_floor _ hq, Rat.floor_natCast_div_natCast]
  have h : ((b : ℚ)) * ((a / b : ℕ) : ℚ) + ((a % b : ℕ) : ℚ) = ((a : ℕ) : ℚ) := by
    exact_mod_cast congrArg (fun n : ℕ => ((n : ℚ))) (Nat.div_add_mod a b)
  congr 1
  rw [show ((a : ℤ) / (b : ℤ) : ℤ) = ((a / b : ℕ) : ℤ) from (Int.ofNat_div a b).symm,
    Int.cast_natCast]
  linarith

lemma fmin_eq_or (a b : F64) : a.fmin b = a ∨ a.fmin b = b := by
  cases a <;> cases b <;> simp [fmin] <;> exact le_total _ _

lemma fmin_ne_nan {a b : F64} (ha : a ≠ .nan) (hb : b ≠ .nan) :
    a.fmin b ≠ .nan := by
  cases a <;> cases b <;> simp_all [fmin]

lemma fmin_nan_right {a : F64} (ha : a ≠ .nan) : a.fmin .nan = a := by
  cases a <;> simp_all [fmin]

lemma fle_refl {a : F64} (ha : a ≠ .nan) : fle a a = true := by
  cases a <;> simp_all [fle]

lemma fle_trans {a b c : F64} (hab : fle a b = true) (hbc : fle b c = true) :
    fle a c = true := by
  cases a <;> cases b <;> cases c <;> simp_all [fle] <;> linarith

lemma fle_fmin_left {a b : F64} (ha : a ≠ .nan) (hb : b ≠ .nan) :
    fle (a.fmin b) a = true := by
  cases a <;> cases b <;> simp_all [fmin, fle, min_le_left]

lemma fle_fmin_right {a b : F64} (ha : a ≠ .nan) (hb : b ≠ .nan) :
    fle (a.fmin b) b = true := by
  cases a <;> cases b <;> simp_all [fmin, fle, min_le_right]

lemma fmax_eq_or (a b : F64) : a.fmax b = a ∨ a.fmax b = b := by
  cases a <;> cases b <;> simp [fmax] <;> exact le_total _ _

lemma fmax_ne_nan {a b : F64} (ha : a ≠ .nan) (hb : b ≠ .nan) :
    a.fmax b ≠ .nan := by
  cases a <;> cases b <;> simp_all [fmax]

lemma fle_fmax_left {a b : F64} (ha : a ≠ .nan) (hb : b ≠ .nan) :
    fle a (a.fmax b) = true := by
  cases a <;> cases b <;> simp_all [fmax, fle, le_max_left]

lemma fle_fmax_right {a b : F64} (ha : a ≠ .nan) (hb : b ≠ .nan) :
    fle b (a.fmax b) = true := by
  cases a <;> cases b <;> simp_all [fmax, fle, le_max_right]

end F64

lemma foldl_fmin_mem (l : List F64) (acc : F64) :
    l.foldl F64.fmin acc ∈ acc :: l := by
  induction l generalizing acc with
  | nil => simp
  | cons h t ih =>
    simp only [List.foldl_cons]
    rcases List.mem_cons.1 (ih (acc.fmin h)) with h1 | h1
    · rw [h1]
      rcases F64.fmin_eq_or acc h with h2 | h2 <;> rw [h2] <;> simp
    · simp [h1]

lemma foldl_fmin_le (l : List F64) (acc : F64) (hacc : acc ≠ .nan)
    (hl : ∀ x ∈ l, x ≠ F64.nan) :
    F64.fle (l.foldl F64.fmin acc) acc = true ∧
      ∀ x ∈ l, F64.fle (l.foldl F64.fmin acc) x = true := by
  induction l generalizing acc with
  | nil => simp [F64.fle_refl hacc]
  | cons h t ih =>
    have hh : h ≠ F64.nan := hl h (by simp)
    have ht : ∀ x ∈ t, x ≠ F64.nan := fun x hx => hl x (by simp [hx])
    have hacc' : acc.fmin h ≠ F64.nan := F64.fmin_ne_nan hacc hh
    obtain ⟨h1, h2⟩ := ih (acc.fmin h) hacc' ht
    refine ⟨F64.fle_trans h1 (F64.fle_fmin_left hacc hh), ?_⟩
    intro x hx
    rcases List.mem_cons.1 hx with rfl | hx'
    · exact F64.fle_trans h1 (F64.fle_fmin_right hacc hh)
    · exact h2 x hx'

lemma foldl_fmin_filter (l : List F64) (acc : F64) (hacc : acc ≠ .nan) :
    (l.filter (fun x => !x.isNaN)).foldl F64.fmin acc =
      l.foldl F64.fmin acc := by
  induction l generalizing acc with
  | nil => simp
  | cons h t ih =>
    by_cases hh : h = F64.nan
    · subst hh
      simp only [List.filter_cons, F64.isNaN, Bool.not_true, if_false,
        List.foldl_cons, F64.fmin_nan_right hacc]
      exact ih acc hacc
    · have : (!h.isNaN) = true := by cases h <;> simp_all [F64.isNaN]
      simp only [List.filter_cons, this, if_true, List.foldl_cons]
      exact ih (acc.fmin h) (F64.fmin_ne_nan hacc hh)

lemma foldl_fmax_mem (l : List F64) (acc : F64) :
    l.foldl F64.fmax acc ∈ acc :: l := by
  induction l generalizing acc with
  | nil => simp
  | cons h t ih =>
    simp only [List.foldl_cons]
    rcases List.mem_cons.1 (ih (acc.fmax h)) with h1 | h1
    · rw [h1]
      rcases F64.fmax_eq_or acc h with h2 | h2 <;> rw [h2] <;> simp
    · simp [h1]

lemma foldl_fmax_ge (l : List F64) (acc : F64) (hacc : acc ≠ .nan)
    (hl : ∀ x ∈ l, x ≠ F64.nan) :
    F64.fle acc (l.foldl F64.fmax acc) = true ∧
      ∀ x ∈ l, F64.fle x (l.foldl F64.fmax acc) = true := by
  induction l generalizing acc with
  | nil => simp [F64.fle_refl hacc]
  | cons h t ih =>
    have hh : h ≠ F64.nan := hl h (by simp)
    have ht : ∀ x ∈ t, x ≠ F64.nan := fun x hx => hl x (by simp [hx])
    have hacc' : acc.fmax h ≠ F64.nan := F64.fmax_ne_nan hacc hh
    obtain ⟨h1, h2⟩ := ih (acc.fmax h) hacc' ht
    refine ⟨F64.fle_trans (F64.fle_fmax_left hacc hh) h1, ?_⟩
    intro x hx
    rcases List.mem_cons.1 hx with rfl | hx'
    · exact F64.fle_trans (F64.fle_fmax_right hacc hh) h1
    · exact h2 x hx'

lemma foldl_add_fin (l : List ℚ) (a : ℚ) :
    (l.map F64.fin).foldl F64.add (F64.fin a) = F64.fin (a + l.sum) := by
  induction l generalizing a with
  | nil => simp
  | cons h t ih =>
    simp only [List.map_cons, List.foldl_cons, F64.add_fin, ih, List.sum_cons]
    ring_nf

lemma f64sum_map_fin (l : List ℚ) : f64sum (l.map F64.fin) = F64.fin l.sum := by
  simpa using foldl_add_fin l 0

lemma zip_map_mul_fin (ps : List ℚ) (qs : List Int) :
    ((ps.map F64.fin).zip qs).map
        (fun pq => F64.mul pq.1 (F64.fin (pq.2 : ℚ))) =
      (List.zipWith (fun p q => p * ((q : Int) : ℚ)) ps qs).map F64.fin := by
  induction ps generalizing qs with
  | nil => simp
  | cons p pt ih =>
    cases qs with
    | nil => simp
    | cons q qt => simp [F64.mul_fin, ih]

lemma wrapI64_wrap_add (a b : Int) :
    wrapI64 (wrapI64 a + b) = wrapI64 (a + b) := by
  unfold wrapI64
  omega

lemma foldl_wrap_add (l : List Int) (a : Int) :
    l.foldl (fun x y => wrapI64 (x + y)) (wrapI64 a) = wrapI64 (a + l.sum) := by
  induction l generalizing a with
  | nil => simp
  | cons h t ih =>
    simp only [List.foldl_cons, List.sum_cons, wrapI64_wrap_add, ih, add_assoc]

lemma wrapI64_zero : wrapI64 0 = 0 := by unfold wrapI64; omega

lemma sumI64_eq_wrap (l : List Int) : sumI64 l = wrapI64 l.sum := by
  unfold sumI64
  rw [← wrapI64_zero, foldl_wrap_add, zero_add]

lemma wrapI64_of_isI64 {n : Int} (h : isI64 n) : wrapI64 n = n := by
  unfold wrapI64
  unfold isI64 at h
  omega

lemma isI64_wrapI64 (n : Int) : isI64 (wrapI64 n) := by
  unfold wrapI64 isI64
  omega

lemma sumI64_eq_sum {l : List Int} (h : isI64 l.sum) : sumI64 l = l.sum := by
  rw [sumI64_eq_wrap, wrapI64_of_isI64 h]

lemma cheapest_mem (P : List F64) (hne : P ≠ []) (hnn : ∀ x ∈ P, x ≠ F64.nan) :
    cheapest P ∈ P := by
  have hinf : (F64.inf : F64) ≠ F64.nan := by simp
  obtain ⟨h1, h2⟩ := foldl_fmin_le P F64.inf hinf hnn
  rcases List.mem_cons.1 (foldl_fmin_mem P F64.inf) with heq | hmem
  · obtain ⟨p, pt, rfl⟩ := List.exists_cons_of_ne_nil hne
    have hp := h2 p (by simp)
    rw [heq] at hp
    have hpnn := hnn p (by simp)
    cases p with
    | nan => exact absurd rfl hpnn
    | inf => simp [cheapest, heq]
    | ninf => simp [F64.fle] at hp
    | fin q => simp [F64.fle] at hp
  · simpa [cheapest] using hmem

lemma cheapest_le (P : List F64) (hnn : ∀ x ∈ P, x ≠ F64.nan) :
    ∀ x ∈ P, F64.fle (cheapest P) x = true := by
  simpa [cheapest] using
    (foldl_fmin_le P F64.inf (by simp) hnn).2

lemma foldl_fmin_fin (ps : List ℚ) (hne : ps ≠ []) :
    ∃ mn : ℚ, (ps.map F64.fin).foldl F64.fmin F64.inf = F64.fin mn ∧
      mn ∈ ps ∧ ∀ x ∈ ps, mn ≤ x := by
  have hnn : ∀ x ∈ ps.map F64.fin, x ≠ F64.nan := by
    intro x hx
    rcases List.mem_map.1 hx with ⟨q, _, rfl⟩
    simp
  have hne' : ps.map F64.fin ≠ [] := by simpa using hne
  have hmem := cheapest_mem (ps.map F64.fin) hne' hnn
  have hle := cheapest_le (ps.map F64.fin) hnn
  rcases List.mem_map.1 hmem with ⟨mn, hmn, hfin⟩
  refine ⟨mn, ?_, hmn, ?_⟩
  · rw [show (ps.map F64.fin).foldl F64.fmin F64.inf = cheapest (ps.map F64.fin)
      from rfl, ← hfin]
  · intro x hx
    have := hle (F64.fin x) (List.mem_map.2 ⟨x, hx, rfl⟩)
    rw [show cheapest (ps.map F64.fin) = F64.fin mn from hfin.symm ▸ rfl] at this
    simpa [F64.fle] using this

lemma foldl_fmax_fin (ps : List ℚ) (hne : ps ≠ []) :
    ∃ mx : ℚ, (ps.map F64.fin).foldl F64.fmax F64.ninf = F64.fin mx ∧
      mx ∈ ps ∧ ∀ x ∈ ps, x ≤ mx := by
  have hnn : ∀ x ∈ ps.map F64.fin, x ≠ F64.nan := by
    intro x hx
    rcases List.mem_map.1 hx with ⟨q, _, rfl⟩
    simp
  have hninf : (F64.ninf : F64) ≠ F64.nan := by simp
  obtain ⟨h1, h2⟩ := foldl_fmax_ge (ps.map F64.fin) F64.ninf hninf hnn
  rcases List.mem_cons.1 (foldl_fmax_mem (ps.map F64.fin) F64.ninf) with heq | hmem
  · obtain ⟨p, pt, hps⟩ := List.exists_cons_of_ne_nil hne
    have hp := h2 (F64.fin p) (by simp [hps])
    rw [heq] at hp
    simp [F64.fle] at hp
  · rcases List.mem_map.1 hmem with ⟨mx, hmx, hfin⟩
    refine ⟨mx, hfin.symm ▸ rfl, hmx, ?_⟩
    intro x hx
    have := h2 (F64.fin x) (List.mem_map.2 ⟨x, hx, rfl⟩)
    rw [← hfin] at this
    simpa [F64.fle] using this

example : cheapest [] = F64.inf := rfl
example : cheapest [F64.fin 3, F64.fin 1, F64.fin 2] = F64.fin 1 := by
  norm_num [cheapest, F64.fmin, List.foldl]
example : cheapest [F64.nan, F64.nan] = F64.inf := by decide
example : savings (F64.fin 5) F64.inf = F64.ninf := by decide
lemma predict_price_eq (item location : String) :
    predict_price item location =
      F64.fin (400 + (((item.length * 100 + location.length * 50) % 1000 : ℕ) : ℚ)) := by
  rw [predict_price]
  rw [show F64.mul (F64.fin (item.length : ℚ)) (F64.fin 100)
        = F64.fin ((item.length * 100 : ℕ) : ℚ) by rw [F64.mul_fin]; push_cast; ring_nf]
  rw [show F64.mul (F64.fin (location.length : ℚ)) (F64.fin 50)
        = F64.fin ((location.length * 50 : ℕ) : ℚ) by rw [F64.mul_fin]; push_cast; ring_nf]
  rw [F64.add_fin]
  rw [show ((item.length * 100 : ℕ) : ℚ) + ((location.length * 50 : ℕ) : ℚ)
        = ((item.length * 100 + location.length * 50 : ℕ) : ℚ) by push_cast; ring_nf]
  rw [show (F64.fin (1000 : ℚ)) = F64.fin ((1000 : ℕ) : ℚ) by norm_num]
  rw [F64.fmod_natCast _ _ (by norm_num)]
  rw [F64.add_fin]

example : predict_price "abc" "de" = F64.fin 800 := by
  rw [predict_price_eq]
  norm_num [show "abc".length = 3 from rfl, show "de".length = 2 from rfl]
example : weighted_average_price [F64.fin 10, F64.fin 20] [1, 3]
    = Except.ok (F64.fin (35 / 2)) := by
  norm_num [weighted_average_price, f64sum, sumI64, wrapI64,
    F64.mul, F64.add, F64.div, List.foldl]
example : weighted_average_price [F64.fin 10, F64.fin 20] [1, 1, 1]
    = Except.error "Prices and quantities must have the same length" := by
  norm_num [weighted_average_price]
example : weighted_average_price [F64.fin 5, F64.fin 15] [0, 0]
    = Except.ok (F64.fin 0) := by
  norm_num [weighted_average_price, sumI64, wrapI64, List.foldl]
example : aggregate_stats [] [1, 2, 3]
    = Except.ok [("mean", F64.fin 0), ("min_val", F64.fin 0),
                 ("max_val", F64.fin 0), ("total_qty", F64.fin 0)] := rfl
example : aggregate_stats [F64.fin 10, F64.fin 20, F64.fin 30] [1, 2, 3]
    = Except.ok [("mean", F64.fin 20), ("min_val", F64.fin 10),
                 ("max_val", F64.fin 30), ("total_qty", F64.fin 6)] := by
  norm_num [aggregate_stats, f64sum, sumI64, wrapI64,
    F64.fmin, F64.fmax, F64.add, F64.div, List.foldl]

/-- C1: for every pair of sequences of equal length,
weighted_average_price returns without error: 0.0 if prices is empty,
0.0 if the quantity total is the integer zero, and otherwise the
division of the weighted price sum by the quantity total.  Prices are
finite floats given as rationals; the quantity total is assumed to fit
in i64 so that the integer sum is the mathematical sum. -/
theorem wap_of_eq_length (ps : List ℚ) (qs : List Int)
    (hlen : ps.length = qs.length) (hs : isI64 qs.sum) :
    weighted_average_price (ps.map F64.fin) qs =
      Except.ok (if ps = [] then F64.fin 0
        else if qs.sum = 0 then F64.fin 0
        else F64.fin
          ((List.zipWith (fun p q => p * ((q : Int) : ℚ)) ps qs).sum /
            ((qs.sum : Int) : ℚ))) := by
  unfold weighted_average_price
  rw [List.length_map, hlen]
  simp only [ne_eq, not_true_eq_false, if_neg, ite_false, not_false_iff]
  by_cases hps : ps = []
  · subst hps
    simp
  · have hempty : (ps.map F64.fin).isEmpty = false := by
      simp [List.isEmpty_iff, hps]
    rw [hempty]
    simp only [Bool.false_eq_true, if_false]
    rw [sumI64_eq_sum hs]
    rw [if_neg hps]
    by_cases hz : qs.sum = 0
    · simp [hz]
    · rw [if_neg hz, if_neg hz]
      rw [zip_map_mul_fin, f64sum_map_fin]
      rw [F64.div_fin _ _ (by exact_mod_cast hz)]

/-- Witness for C1 at prices [10, 20] and quantities [1, 3]: the
weighted average is (10*1 + 20*3)/4 = 35/2. -/
theorem wap_of_eq_length_witness :
    weighted_average_price [F64.fin 10, F64.fin 20] [1, 3] =
      Except.ok (F64.fin (35 / 2)) := by
  have h := wap_of_eq_length [10, 20] [1, 3] (by decide) (by decide)
  simp only [List.map_cons, List.map_nil] at h
  rw [h]
  rw [if_neg (by simp : ¬([10, 20] : List ℚ) = [])]
  rw [if_neg (by decide : ¬([1, 3] : List Int).sum = 0)]
  simp [List.zipWith]
  norm_num

/-- C2: weighted_average_price raises an error exactly on length
mismatch, always carrying the fixed message, and aggregate_stats never
raises (cheapest, savings and predict_price are plain total functions
of the embedding, so they cannot raise by construction). -/
theorem wap_error_iff (ps : List F64) (qs : List Int) :
    (weighted_average_price ps qs =
        Except.error "Prices and quantities must have the same length" ↔
      ps.length ≠ qs.length) ∧
    (∀ e, weighted_average_price ps qs = Except.error e →
      e = "Prices and quantities must have the same length") ∧
    (∃ m, aggregate_stats ps qs = Except.ok m) := by
  unfold weighted_average_price aggregate_stats
  by_cases hlen : ps.length = qs.length <;>
    by_cases hps : ps.isEmpty <;>
      simp [hlen, hps] <;>
        split_ifs <;> simp

/-- Witness for C2: a length-1 price list with an empty quantity list
is rejected with the fixed message. -/
theorem wap_error_iff_witness :
    weighted_average_price [F64.fin 10] [] =
      Except.error "Prices and quantities must have the same length" :=
  (wap_error_iff [F64.fin 10] []).1.mpr (by simp)

/-- C4: with empty prices, aggregate_stats returns the all-zero record
for every quantities list, even a non-empty one with non-zero sum. -/
theorem aggregate_stats_empty (qs : List Int) :
    aggregate_stats [] qs =
      Except.ok [("mean", F64.fin 0), ("min_val", F64.fin 0),
        ("max_val", F64.fin 0), ("total_qty", F64.fin 0)] := rfl

/-- C8: for every input pair, aggregate_stats succeeds and the result
mapping binds exactly the four keys mean, min_val, max_val, total_qty
in both branches (each value is an F64 by the result type). -/
theorem aggregate_stats_keys (ps : List F64) (qs : List Int) :
    ∃ m, aggregate_stats ps qs = Except.ok m ∧
      m.map Prod.fst = ["mean", "min_val", "max_val", "total_qty"] := by
  unfold aggregate_stats
  by_cases h : ps.isEmpty <;> simp [h]

/-- C3: with non-empty prices and arbitrary (possibly mismatched)
quantities, aggregate_stats succeeds and returns the arithmetic mean of
the prices, their minimum, their maximum, and the quantity sum cast to
floating point.  Prices are finite floats given as rationals; the
quantity sum is assumed to fit in i64. -/
theorem aggregate_stats_nonempty (ps : List ℚ) (qs : List Int)
    (hne : ps ≠ []) (hs : isI64 qs.sum) :
    ∃ mn mx : ℚ,
      aggregate_stats (ps.map F64.fin) qs =
        Except.ok [("mean", F64.fin (ps.sum / ((ps.length : ℕ) : ℚ))),
          ("min_val", F64.fin mn), ("max_val", F64.fin mx),
          ("total_qty", F64.fin (((qs.sum : Int) : ℚ)))] ∧
      mn ∈ ps ∧ (∀ x ∈ ps, mn ≤ x) ∧ mx ∈ ps ∧ (∀ x ∈ ps, x ≤ mx) := by
  obtain ⟨mn, hmn_eq, hmn_mem, hmn_le⟩ := foldl_fmin_fin ps hne
  obtain ⟨mx, hmx_eq, hmx_mem, hmx_ge⟩ := foldl_fmax_fin ps hne
  refine ⟨mn, mx, ?_, hmn_mem, hmn_le, hmx_mem, hmx_ge⟩
  unfold aggregate_stats
  have hempty : (ps.map F64.fin).isEmpty = false := by
    simp [List.isEmpty_iff, hne]
  rw [hempty]
  simp only [Bool.false_eq_true, if_false]
  rw [f64sum_map_fin, hmn_eq, hmx_eq, sumI64_eq_sum hs, List.length_map]
  rw [F64.div_fin _ _ (by
    exact_mod_cast (List.length_pos.2 hne).ne')]

/-- Witness for C3 at prices [10, 20, 30] and quantities [1, 2, 3]:
mean 20, min 10, max 30, total quantity 6. -/
theorem aggregate_stats_nonempty_witness :
    aggregate_stats ([10, 20, 30].map F64.fin) [1, 2, 3] =
      Except.ok [("mean", F64.fin 20), ("min_val", F64.fin 10),
        ("max_val", F64.fin 30), ("total_qty", F64.fin 6)] := by
  obtain ⟨mn, mx, heq, hmn_mem, hmn_le, hmx_mem, hmx_ge⟩ :=
    aggregate_stats_nonempty [10, 20, 30] [1, 2, 3] (by simp) (by decide)
  have hmn : mn = 10 := by
    have h1 := hmn_le 10 (by simp)
    simp only [List.mem_cons, List.not_mem_nil, or_false] at hmn_mem
    rcases hmn_mem with rfl | rfl | rfl
    · rfl
    · linarith
    · linarith
  have hmx : mx = 30 := by
    have h1 := hmx_ge 30 (by simp)
    simp only [List.mem_cons, List.not_mem_nil, or_false] at hmx_mem
    rcases hmx_mem with rfl | rfl | rfl
    · linarith
    · linarith
    · rfl
  rw [hmn, hmx] at heq
  rw [heq]
  norm_num

/-- C5: for a non-empty NaN-free price list the fold seeded at positive
infinity returns the minimum element (a member that is a lower bound of
the list), and the empty list yields positive infinity, not an error
and not zero. -/
theorem cheapest_spec (P : List F64) (hne : P ≠ [])
    (hnn : ∀ x ∈ P, x ≠ F64.nan) :
    (cheapest P ∈ P ∧ ∀ x ∈ P, F64.fle (cheapest P) x = true) ∧
      cheapest ([] : List F64) = F64.inf :=
  ⟨⟨cheapest_mem P hne hnn, cheapest_le P hnn⟩, rfl⟩

/-- Witness for C5 at the list [3.0, 1.0]: the returned value is a
member and a lower bound, and the empty list gives infinity. -/
theorem cheapest_spec_witness :
    (cheapest [F64.fin 3, F64.fin 1] ∈ [F64.fin 3, F64.fin 1] ∧
      ∀ x ∈ [F64.fin 3, F64.fin 1],
        F64.fle (cheapest [F64.fin 3, F64.fin 1]) x = true) ∧
    cheapest ([] : List F64) = F64.inf :=
  cheapest_spec [F64.fin 3, F64.fin 1] (by simp) (by decide)

/-- C6: predict_price equals 400 plus the integer hash
(len(item)*100 + len(location)*50) mod 1000, and therefore depends only
on the two string lengths.  In the exact embedding the f64 arithmetic
of the source coincides with this integer formula. -/
theorem predict_price_spec (item location : String) :
    predict_price item location =
      F64.fin (400 +
        (((item.length * 100 + location.length * 50) % 1000 : ℕ) : ℚ)) ∧
    ∀ item2 location2 : String, item2.length = item.length →
      location2.length = location.length →
      predict_price item2 location2 = predict_price item location := by
  refine ⟨predict_price_eq item location, ?_⟩
  intro item2 location2 h1 h2
  rw [predict_price_eq, predict_price_eq, h1, h2]

/-- Witness for C6: predict_price on "abc" and "de" gives
400 + (3*100 + 2*50) mod 1000 = 800, and content with equal lengths
gives the same value. -/
theorem predict_price_spec_witness :
    predict_price "abc" "de" = F64.fin 800 ∧
      predict_price "xyz" "qw" = predict_price "abc" "de" := by
  constructor
  · rw [(predict_price_spec "abc" "de").1]
    norm_num [show "abc".length = 3 from rfl, show "de".length = 2 from rfl]
  · exact (predict_price_spec "abc" "de").2 "xyz" "qw" rfl rfl

/-- C7: savings returns exactly current minus cheapest with no bounds
checking: finite inputs give the exact difference, an infinite second
argument propagates to an infinite result, and the result is negative
whenever the first argument is below the second. -/
theorem savings_spec :
    (∀ c k : F64, savings c k = F64.sub c k) ∧
    (∀ a b : ℚ, savings (F64.fin a) (F64.fin b) = F64.fin (a - b)) ∧
    (∀ a : ℚ, savings (F64.fin a) F64.inf = F64.ninf ∧
      savings (F64.fin a) F64.ninf = F64.inf) ∧
    (∀ a b : ℚ, a < b →
      savings (F64.fin a) (F64.fin b) = F64.fin (a - b) ∧ a - b < 0) := by
  refine ⟨fun c k => rfl, fun a b => rfl, fun a => ⟨rfl, rfl⟩, ?_⟩
  intro a b hab
  exact ⟨rfl, by linarith⟩

/-- Witness for C7: savings(1.0, 2.0) is the negative value -1, and
savings of a finite value against infinity is negative infinity. -/
theorem savings_spec_witness :
    savings (F64.fin 1) (F64.fin 2) = F64.fin (1 - 2) ∧ (1 : ℚ) - 2 < 0 :=
  savings_spec.2.2.2 1 2 (by norm_num)

/-- C9: cheapest skips NaN elements: the fold equals the same fold over
the non-NaN elements; when any non-NaN elements remain it returns their
minimum (a member of and lower bound of the filtered list), and when
the list is all-NaN (or empty) it returns positive infinity, not NaN. -/
theorem cheapest_skips_nan (P : List F64) :
    cheapest P = cheapest (P.filter (fun x => !x.isNaN)) ∧
    (P.filter (fun x => !x.isNaN) ≠ [] →
      cheapest P ∈ P.filter (fun x => !x.isNaN) ∧
      ∀ x ∈ P.filter (fun x => !x.isNaN),
        F64.fle (cheapest P) x = true) ∧
    (P.filter (fun x => !x.isNaN) = [] → cheapest P = F64.inf) := by
  have hfilter : cheapest (P.filter (fun x => !x.isNaN)) = cheapest P := by
    unfold cheapest
    exact foldl_fmin_filter P F64.inf (by simp)
  have hnn : ∀ x ∈ P.filter (fun x => !x.isNaN), x ≠ F64.nan := by
    intro x hx
    have := (List.mem_filter.1 hx).2
    cases x <;> simp_all [F64.isNaN]
  refine ⟨hfilter.symm, ?_, ?_⟩
  · intro hne
    constructor
    · rw [← hfilter]
      exact cheapest_mem _ hne hnn
    · intro x hx
      rw [← hfilter]
      exact cheapest_le _ hnn x hx
  · intro hnil
    rw [← hfilter, hnil]
    rfl

/-- Witness for C9: a list consisting solely of NaN values yields
positive infinity, and on [NaN, 5.0] the fold returns the minimum of
the non-NaN elements, namely 5.0. -/
theorem cheapest_skips_nan_witness :
    cheapest [F64.nan] = F64.inf ∧
      cheapest [F64.nan, F64.fin 5] ∈
        List.filter (fun x => !x.isNaN) [F64.nan, F64.fin 5] :=
  ⟨(cheapest_skips_nan [F64.nan]).2.2 (by decide),
    ((cheapest_skips_nan [F64.nan, F64.fin 5]).2.1 (by decide)).1⟩

/-- C10: the quantity totals of aggregate_stats and
weighted_average_price are 64-bit signed integer sums: the computed
total is congruent to the mathematical sum modulo 2^64 and always lies
in the i64 range, so it equals the mathematical sum exactly when that
sum is in range and differs from it whenever the sum overflows.
aggregate_stats returns this total cast to floating point, and
weighted_average_price divides by the same total. -/
theorem quantity_total_i64 (ps : List F64) (qs : List Int)
    (hne : ¬ps.isEmpty) :
    (∃ m, aggregate_stats ps qs = Except.ok m ∧
      ("total_qty", F64.fin ((sumI64 qs : Int) : ℚ)) ∈ m) ∧
    sumI64 qs % 2 ^ 64 = qs.sum % 2 ^ 64 ∧
    isI64 (sumI64 qs) ∧
    (isI64 qs.sum → sumI64 qs = qs.sum) ∧
    (¬isI64 qs.sum → sumI64 qs ≠ qs.sum) ∧
    (ps.length = qs.length → sumI64 qs ≠ 0 →
      weighted_average_price ps qs =
        Except.ok (F64.div
          (f64sum ((ps.zip qs).map
            (fun pq => F64.mul pq.1 (F64.fin ((pq.2 : Int) : ℚ)))))
          (F64.fin ((sumI64 qs : Int) : ℚ)))) := by
  refine ⟨?_, ?_, ?_, fun h => sumI64_eq_sum h, ?_, ?_⟩
  · unfold aggregate_stats
    rw [Bool.not_eq_true] at hne
    rw [hne]
    simp
  · rw [sumI64_eq_wrap]
    unfold wrapI64
    omega
  · rw [sumI64_eq_wrap]
    exact isI64_wrapI64 _
  · intro hout heq
    exact hout (heq ▸ (sumI64_eq_wrap qs ▸ isI64_wrapI64 qs.sum))
  · intro hlen hz
    unfold weighted_average_price
    rw [hlen]
    simp only [ne_eq, not_true_eq_false, if_false, ite_false, not_false_iff]
    rw [Bool.not_eq_true] at hne
    rw [hne]
    simp only [Bool.false_eq_true, if_false, if_neg hz]

/-- Witness for C10 at prices [1.0] and quantities [2, 3]: the stats
total is the exact sum 5 and the wrapped sum agrees with the
mathematical sum. -/
theorem quantity_total_i64_witness :
    sumI64 [2, 3] = List.sum [2, 3] :=
  (quantity_total_i64 [F64.fin 1] [2, 3] (by decide)).2.2.2.1 (by decide)
